import Mathlib

/-!
Verification of the data-analyzer core of the `ts-tutorial` repository:
a shallow embedding of the JavaScript/TypeScript values and of the
functions in `src/analyzers/DataAnalyzer.ts`, `src/models/DataSource.ts`,
`src/utils/helpers.ts` and the CSV/XML/JSON readers, together with
theorems settling the specification's claims about them.
-/

/-- A JavaScript runtime value, as far as the analyzed program needs:
finite numbers are modelled by `ℚ` (the program's arithmetic is exact on the
data it handles), `nan` is the IEEE NaN (which has `typeof` "number"),
plus strings, booleans, `undefined`, `null`, plain objects (own properties
in insertion order) and arrays. -/
inductive JsValue : Type where
  | num (q : ℚ)
  | nan
  | str (s : String)
  | bool (b : Bool)
  | undef
  | null
  | obj (fields : List (String × JsValue))
  | arr (elems : List JsValue)

/-- A record (`T extends Record<string, any>`): own properties of a plain
object, keyed by field name, in insertion order. -/
abbrev Obj : Type := List (String × JsValue)

/-- Property access `o[k]`: a missing key yields `undefined`. -/
def getV (o : Obj) (k : String) : JsValue :=
  match o.lookup k with
  | some v => v
  | none => JsValue.undef

/-- The `in` operator on an object: the key is among the own keys.
(The program only applies `in` behind a `typeof === 'object'` guard.) -/
def hasKey (o : Obj) (k : String) : Bool :=
  (o.lookup k).isSome

/-- JavaScript `typeof`. `typeof NaN` is `"number"`, `typeof null` is
`"object"`. -/
def typeofV : JsValue → String
  | JsValue.num _ => "number"
  | JsValue.nan => "number"
  | JsValue.str _ => "string"
  | JsValue.bool _ => "boolean"
  | JsValue.undef => "undefined"
  | JsValue.null => "object"
  | JsValue.obj _ => "object"
  | JsValue.arr _ => "object"

/-- JavaScript strict equality `===` on the values the program compares.
`NaN === NaN` is false; objects and arrays compare by reference, and two
separately materialized references are distinct, so the model answers
`false` for them. -/
def jsStrictEq : JsValue → JsValue → Bool
  | JsValue.num a, JsValue.num b => decide (a = b)
  | JsValue.str a, JsValue.str b => a == b
  | JsValue.bool a, JsValue.bool b => a == b
  | JsValue.undef, JsValue.undef => true
  | JsValue.null, JsValue.null => true
  | _, _ => false

/-- JavaScript `String(v)` for the values that occur as group keys.
The decimal rendering of a number is modelled by the `ℚ` rendering; the
claims only use that it is a function of the value. -/
def jsToString : JsValue → String
  | JsValue.num q => toString q
  | JsValue.nan => "NaN"
  | JsValue.str s => s
  | JsValue.bool b => if b then "true" else "false"
  | JsValue.undef => "undefined"
  | JsValue.null => "null"
  | JsValue.obj _ => "[object Object]"
  | JsValue.arr _ => ""

-- ============================================
-- DataAnalyzer (src/analyzers/DataAnalyzer.ts)
-- The working set `this.data` is the `List Obj` threaded through each
-- operation; a method mutating `this.data` becomes a function from the
-- working set to the new working set.
-- ============================================

/-- `SortOrder` enum. -/
inductive SortOrder : Type where
  | asc
  | desc
  deriving DecidableEq

/-- `AggregateOperation` union type. -/
inductive AggregateOperation : Type where
  | sum
  | avg
  | min
  | max
  | count
  deriving DecidableEq

/-- `filter(predicate)` (DataAnalyzer.ts line 54). -/
def filterData (predicate : Obj → Bool) (data : List Obj) : List Obj :=
  data.filter predicate

/-- `filterBy(field, value)` (DataAnalyzer.ts line 66):
`this.data = this.data.filter(item => item[field] === value)`. -/
def filterBy (field : String) (value : JsValue) (data : List Obj) : List Obj :=
  data.filter (fun item => jsStrictEq (getV item field) value)

/-- The comparator built by `sortBy` (DataAnalyzer.ts lines 117-133) as a
JavaScript number. Both numeric: difference (order-dependent sign); both
strings: `localeCompare` (the zh-CN collation is modelled by code-point
order, a fixed total order, which is all the claims use); otherwise 0.
A NaN operand falls outside the `num`/`num` branch; the engine sorts with
comparator result treated as 0 there, matching `Array.prototype.sort`'s
handling of a NaN comparator value. -/
def cmpField (field : String) (order : SortOrder) (a b : Obj) : ℚ :=
  match getV a field, getV b field with
  | JsValue.num x, JsValue.num y =>
      if order = SortOrder.asc then x - y else y - x
  | JsValue.str s, JsValue.str t =>
      let c : ℚ := if s < t then -1 else if t < s then 1 else 0
      if order = SortOrder.asc then c else -c
  | _, _ => 0

/-- `sortBy(field, order)` (DataAnalyzer.ts line 113): JavaScript
`Array.prototype.sort` is a stable sort; with comparator `cmp` it is
modelled by a stable merge sort under `cmp a b ≤ 0`. -/
def sortByField (field : String) (order : SortOrder) (data : List Obj) : List Obj :=
  data.mergeSort (fun a b => decide (cmpField field order a b ≤ 0))

/-- One step of the `reduce` in `groupBy` (DataAnalyzer.ts lines 151-158):
append the item to the group of key `k`, creating the group (at the end,
matching object key insertion order) when absent. -/
def insertGroup (gs : List (String × List Obj)) (k : String) (it : Obj) :
    List (String × List Obj) :=
  match gs with
  | [] => [(k, [it])]
  | (k', l) :: rest =>
      if k' = k then (k', l ++ [it]) :: rest else (k', l) :: insertGroup rest k it

/-- `groupBy(field)` (DataAnalyzer.ts line 148): reduce over the working
set; the `Record<string, T[]>` is the association list of group key to
records, keys in insertion order. The working set is not reassigned. -/
def groupByField (field : String) (data : List Obj) : List (String × List Obj) :=
  data.foldl (fun gs item => insertGroup gs (jsToString (getV item field)) item) []

/-- NaN-propagating `+` on the values `aggregate` folds (all of
`typeof === 'number'`, i.e. `num` or `nan`). -/
def jsAdd : JsValue → JsValue → JsValue
  | JsValue.num a, JsValue.num b => JsValue.num (a + b)
  | _, _ => JsValue.nan

/-- `/` on the average's operands. The divisor is the positive count at the
only call site, so the JavaScript divide-by-zero (Infinity/NaN) cases are
unreachable there. -/
def jsDiv : JsValue → JsValue → JsValue
  | JsValue.num a, JsValue.num b => JsValue.num (a / b)
  | _, _ => JsValue.nan

/-- Binary `Math.min` on number-typed values: NaN wins. -/
def jsMinV : JsValue → JsValue → JsValue
  | JsValue.num a, JsValue.num b => JsValue.num (min a b)
  | _, _ => JsValue.nan

/-- Binary `Math.max` on number-typed values: NaN wins. -/
def jsMaxV : JsValue → JsValue → JsValue
  | JsValue.num a, JsValue.num b => JsValue.num (max a b)
  | _, _ => JsValue.nan

/-- `Math.min(...values)`: `aggregate` only spreads a non-empty list, so
the zero-argument case (`Infinity`) is unreachable and modelled by `nan`. -/
def jsMathMin : List JsValue → JsValue
  | [] => JsValue.nan
  | v :: vs => vs.foldl jsMinV v

/-- `Math.max(...values)`: the zero-argument case (`-Infinity`) is
unreachable and modelled by `nan`. -/
def jsMathMax : List JsValue → JsValue
  | [] => JsValue.nan
  | v :: vs => vs.foldl jsMaxV v

/-- The number-typed values of a field over the working set
(DataAnalyzer.ts lines 172-174):
`this.data.map(item => item[field]).filter(val => typeof val === 'number')`. -/
def numberValues (field : String) (data : List Obj) : List JsValue :=
  (data.map (fun item => getV item field)).filter (fun v => typeofV v == "number")

/-- `aggregate(field, operation)` (DataAnalyzer.ts lines 168-197). -/
def aggregate (field : String) (operation : AggregateOperation)
    (data : List Obj) : JsValue :=
  let values := numberValues field data
  if values.length = 0 then JsValue.num 0
  else
    match operation with
    | AggregateOperation.sum => values.foldl jsAdd (JsValue.num 0)
    | AggregateOperation.avg =>
        jsDiv (values.foldl jsAdd (JsValue.num 0)) (JsValue.num values.length)
    | AggregateOperation.min => jsMathMin values
    | AggregateOperation.max => jsMathMax values
    | AggregateOperation.count => JsValue.num values.length

/-- ECMAScript `Array.prototype.slice(start, end)` index arithmetic:
negative indices count from the end, then are clamped to `[0, length]`. -/
def jsSlice (data : List Obj) (start fin : Int) : List Obj :=
  let len : Int := data.length
  let k : Int := if start < 0 then max (len + start) 0 else min start len
  let f : Int := if fin < 0 then max (len + fin) 0 else min fin len
  ((data.drop k.toNat).take (f - k).toNat)

/-- `limit(count)` (DataAnalyzer.ts line 228): `this.data.slice(0, count)`. -/
def limit (count : Int) (data : List Obj) : List Obj :=
  jsSlice data 0 count

/-- `skip(count)` (DataAnalyzer.ts line 236): `this.data.slice(count)`;
the omitted end index defaults to the length. -/
def skip (count : Int) (data : List Obj) : List Obj :=
  jsSlice data count data.length

-- ============================================
-- DataSource (src/models/DataSource.ts) and file-type detection
-- (src/utils/helpers.ts lines 270-283)
-- ============================================

/-- `FileType` enum (src/types/index.ts). -/
inductive FileType : Type where
  | CSV
  | JSON
  | XML
  | UNKNOWN
  deriving DecidableEq

/-- Split a character list at a separator, `String.prototype.split` style:
the result is never empty, and splitting the empty string yields `[[]]`. -/
def splitChar (c : Char) : List Char → List (List Char)
  | [] => [[]]
  | x :: xs =>
    match splitChar c xs with
    | [] => [[x]]
    | y :: ys => if x = c then [] :: y :: ys else (x :: y) :: ys

/-- `String.prototype.split(sep)` for a one-character separator. -/
def jsSplit (c : Char) (s : String) : List String :=
  (splitChar c s.data).map String.mk

/-- ASCII `toLowerCase` (the program only lowercases file extensions). -/
def jsToLower (s : String) : String :=
  String.mk (s.data.map Char.toLower)

/-- `path.split('.').pop()?.toLowerCase()`: `split` never returns an empty
array, so `pop` always yields the last chunk. -/
def extOf (path : String) : String :=
  jsToLower ((jsSplit '.' path).getLastD "")

/-- `DataSource.detectFileType` (DataSource.ts lines 59-70): only `csv`
and `json` are recognized; there is no `xml` case. -/
def detectFileTypeDS (path : String) : FileType :=
  match extOf path with
  | "csv" => FileType.CSV
  | "json" => FileType.JSON
  | _ => FileType.UNKNOWN

/-- The standalone `detectFileType` helper (helpers.ts lines 270-283),
which additionally recognizes `xml`. -/
def detectFileTypeHelper (path : String) : FileType :=
  match extOf path with
  | "csv" => FileType.CSV
  | "json" => FileType.JSON
  | "xml" => FileType.XML
  | _ => FileType.UNKNOWN

/-- The state a `DataSource` constructor establishes (DataSource.ts lines
31-34) together with the subclass-provided behaviour of its abstract
methods for one `load` call: the outcome of `read()` (a parsed dataset or
a thrown error's message) and the `validate` predicate. -/
structure Source : Type where
  filePath : String
  fileType : FileType
  read : Except String (List Obj)
  validate : List Obj → Bool

/-- `DataSource`'s constructor: caches `detectFileType(filePath)` in
`this.fileType`. -/
def mkSource (filePath : String) (read : Except String (List Obj))
    (validate : List Obj → Bool) : Source :=
  { filePath := filePath
    fileType := detectFileTypeDS filePath
    read := read
    validate := validate }

/-- `getFileInfo()` (DataSource.ts lines 79-84). -/
def getFileInfo (s : Source) : String × FileType :=
  (s.filePath, s.fileType)

/-- The generic validation-failure error thrown by `load` (DataSource.ts
line 102): `new Error('数据格式验证失败')`, a fixed message. -/
def validationFailureMsg : String := "数据格式验证失败"

/-- `load()` (DataSource.ts lines 93-113): `read()`, then `validate` on
its result; a read error or the thrown validation error propagates
unchanged through the `catch` (which only logs and rethrows). -/
def load (s : Source) : Except String (List Obj) :=
  match s.read with
  | Except.error e => Except.error e
  | Except.ok data =>
      if s.validate data then Except.ok data
      else Except.error validationFailureMsg

-- ============================================
-- Validators (src/utils/helpers.ts lines 22-43, and the readers'
-- private isSale / isUser)
-- ============================================

/-- `typeof v === 'object' && v !== null && k in v`, the guarded key test
all validators build on. `in` on a primitive would throw, but every use
here sits behind the `typeof`/null guard. -/
def isObjWithKey (v : JsValue) (k : String) : Bool :=
  match v with
  | JsValue.obj fields => hasKey fields k
  | _ => false

/-- `helpers.isSale` (helpers.ts lines 22-30): a non-null object with
`id`, `product` and `price` keys present. No type check on any field, and
`category`, `quantity`, `date` are not required. -/
def helpersIsSale (v : JsValue) : Bool :=
  typeofV v == "object" &&
  !(jsStrictEq v JsValue.null) &&
  isObjWithKey v "id" &&
  isObjWithKey v "product" &&
  isObjWithKey v "price"

/-- `helpers.isUser` (helpers.ts lines 35-43): a non-null object with
`id`, `name` and `email` keys present; no type checks. -/
def helpersIsUser (v : JsValue) : Bool :=
  typeofV v == "object" &&
  !(jsStrictEq v JsValue.null) &&
  isObjWithKey v "id" &&
  isObjWithKey v "name" &&
  isObjWithKey v "email"

/-- `k in v && typeof v[k] === ty` for an object `v`. -/
def keyHasType (v : JsValue) (k : String) (ty : String) : Bool :=
  match v with
  | JsValue.obj fields => hasKey fields k && (typeofV (getV fields k) == ty)
  | _ => false

/-- `CsvReader.isSale` = `XmlReader.isSale` (part_006 lines 70-81,
part_005 lines 55-66): non-null object, all six `Sale` fields present
with the exact `typeof`. -/
def readerIsSale (v : JsValue) : Bool :=
  typeofV v == "object" &&
  !(jsStrictEq v JsValue.null) &&
  keyHasType v "id" "number" &&
  keyHasType v "product" "string" &&
  keyHasType v "category" "string" &&
  keyHasType v "price" "number" &&
  keyHasType v "quantity" "number" &&
  keyHasType v "date" "string"

/-- `JsonReader.isUser` (readers/JsonReader.ts): all six `User` fields
present with the exact `typeof`. (It has no `typeof obj === 'object'`
guard of its own; on object inputs — the only ones reaching it through
`validate`'s array check in this model — the behaviour is as here.) -/
def readerIsUser (v : JsValue) : Bool :=
  match v with
  | JsValue.obj _ =>
      keyHasType v "id" "number" &&
      keyHasType v "name" "string" &&
      keyHasType v "age" "number" &&
      keyHasType v "email" "string" &&
      keyHasType v "role" "string" &&
      keyHasType v "active" "boolean"
  | _ => false

/-- The collection-level `validate` shared by the readers (part_006 lines
46-61 and the JSON/XML twins): not an array → false; empty array → true;
otherwise `every` element passes the record validator. -/
def validateAll (pred : JsValue → Bool) (v : JsValue) : Bool :=
  match v with
  | JsValue.arr items => if items.isEmpty then true else items.all pred
  | _ => false

-- ============================================
-- CsvReader.read (part_006 lines 13-42) and the XML record extraction
-- (part_005 lines 23-30)
-- ============================================

/-- Is the character trimmed by `trim()`. -/
def isJsSpace (c : Char) : Bool :=
  c = ' ' || c = '\t' || c = '\n' || c = '\r'

/-- `String.prototype.trim()`. -/
def jsTrim (s : String) : String :=
  String.mk (((s.data.dropWhile isJsSpace).reverse.dropWhile isJsSpace).reverse)

/-- Digits to the natural number they denote. -/
def natOfDigits (l : List Char) : Nat :=
  l.foldl (fun n c => 10 * n + (c.toNat - 48)) 0

/-- `Number(s)` for a string: empty/whitespace → 0, an unsigned decimal
integer literal → its value, anything else → NaN. (The full JavaScript
numeric grammar — signs, fractions, exponents, hex — does not occur in
the analyzed inputs and is modelled by its NaN fallback.) -/
def jsNumberOfString (s : String) : JsValue :=
  let t := (s.data.dropWhile isJsSpace).reverse.dropWhile isJsSpace |>.reverse
  if t.isEmpty then JsValue.num 0
  else if t.all Char.isDigit then JsValue.num (natOfDigits t : ℚ)
  else JsValue.nan

/-- `Number(values[i])`: a missing cell is `undefined`, and
`Number(undefined)` is NaN. -/
def jsNumberOfCell : Option String → JsValue
  | none => JsValue.nan
  | some s => jsNumberOfString s

/-- `values[i]` used as a string field: a missing cell is `undefined`. -/
def cellOrUndef : Option String → JsValue
  | none => JsValue.undef
  | some s => JsValue.str s

/-- One data line of the CSV (part_006 lines 25-35):
`values = line.split(',').map(v => v.trim())`, then the `Sale` object
literal is built positionally, coercing cells with `Number` and leaving
missing cells `undefined`/NaN. -/
def csvLineToSale (line : String) : Obj :=
  let values := (jsSplit ',' line).map jsTrim
  [("id", jsNumberOfCell (values.get? 0)),
   ("product", cellOrUndef (values.get? 1)),
   ("category", cellOrUndef (values.get? 2)),
   ("price", jsNumberOfCell (values.get? 3)),
   ("quantity", jsNumberOfCell (values.get? 4)),
   ("date", cellOrUndef (values.get? 5))]

/-- `CsvReader.read` on the file content (part_006 lines 13-42): trim,
split into lines, skip the header line, convert every remaining line.
String processing throws nothing, so every content string parses to `ok`;
only the file-system read itself can fail, wrapped in the catch's
`CSV读取失败` error. -/
def csvRead (file : Except String String) : Except String (List Obj) :=
  match file with
  | Except.error e => Except.error ("CSV读取失败: Error: " ++ e)
  | Except.ok content =>
      let lines := jsSplit '\n' (jsTrim content)
      Except.ok ((lines.drop 1).map csvLineToSale)

/-- The record-collection step of `XmlReader.read` (part_005 lines 23-30):
over the normalized `sales.sale` array, `isSale` elements are pushed and
every other element is skipped with no error. -/
def xmlCollectSales (salesArray : List JsValue) : List JsValue :=
  salesArray.filter readerIsSale

/-- `XmlReader.read` from the normalized parse result: parse errors are
wrapped, but a successfully parsed array is silently filtered. -/
def xmlRead (parsed : Except String (List JsValue)) : Except String (List JsValue) :=
  match parsed with
  | Except.error e => Except.error ("XML 解析失败: Error: " ++ e)
  | Except.ok salesArray => Except.ok (xmlCollectSales salesArray)

-- ============================================
-- Reference heap model for the defensive copies (DataAnalyzer.ts lines
-- 39-41 and 295-298): arrays are references into a store; `[...data]`
-- allocates a fresh array holding the same elements.
-- ============================================

/-- A store of arrays of records: `next` is the next fresh reference. -/
structure Store : Type where
  mem : Nat → List Obj
  next : Nat

/-- Allocate a fresh array with the given contents. -/
def allocRef (s : Store) (contents : List Obj) : Store × Nat :=
  ({ mem := fun i => if i = s.next then contents else s.mem i
     next := s.next + 1 },
   s.next)

/-- Overwrite the array behind a reference (a caller mutating its
collection, or the engine mutating its working set). -/
def writeRef (s : Store) (r : Nat) (contents : List Obj) : Store :=
  { mem := fun i => if i = r then contents else s.mem i
    next := s.next }

/-- `new DataAnalyzer(data)` / `reset(newData)`: `this.data = [...data]`
allocates a fresh array with a copy of the caller's elements and stores
the engine's reference to it. -/
def analyzerCopyIn (s : Store) (callerRef : Nat) : Store × Nat :=
  allocRef s (s.mem callerRef)

-- ============================================
-- Claim theorems
-- ============================================

/-- C9: for every working set, field and value, applying
`filterBy(field, value)` twice yields the same working set as applying it
once. -/
theorem filterBy_idempotent (field : String) (value : JsValue) (data : List Obj) :
    filterBy field value (filterBy field value data) = filterBy field value data := by
  unfold filterBy
  rw [List.filter_filter]
  simp

/-- C10: `limit(n)` has JavaScript `slice(0, n)` semantics: a negative `n`
keeps the first `max(length + n, 0)` records (dropping the last `|n|`),
and a non-negative `n` keeps the first `min(n, length)` records. -/
theorem limit_slice_semantics (n : Int) (l : List Obj) :
    limit n l = if n < 0 then l.take (l.length + n).toNat
                else l.take (min n.toNat l.length) := by
  rcases lt_or_le n 0 with h | h
  · simp only [limit, jsSlice, if_pos h, if_neg (by omega : ¬ (0:Int) < 0)]
    rw [show (min (0:Int) (l.length : Int)).toNat = 0 by omega, List.drop_zero]
    congr 1
    omega
  · simp only [limit, jsSlice, if_neg (not_lt.mpr h), if_neg (by omega : ¬ (0:Int) < 0)]
    rw [show (min (0:Int) (l.length : Int)).toNat = 0 by omega, List.drop_zero]
    congr 1
    omega

/-- C4, counterexample: the construction-time detection
(`DataSource.detectFileType`) has no `xml` case, so an `.xml` origin is
detected as `UNKNOWN`, not `XML`. -/
theorem detectFileTypeDS_xml_unknown :
    detectFileTypeDS "data.xml" = FileType.UNKNOWN ∧
    detectFileTypeDS "data.xml" ≠ FileType.XML := by
  exact ⟨rfl, by decide⟩

/-- C4, amended: shape-kind detection is a pure function of the origin's
extension, cached at construction; the construction-time detector maps
`.csv` to CSV, `.json` to JSON and everything else — `.xml` included — to
UNKNOWN, while the standalone helper additionally maps `.xml` to XML. -/
theorem detectFileType_spec (p : String) :
    (extOf p = "csv" → detectFileTypeDS p = FileType.CSV ∧ detectFileTypeHelper p = FileType.CSV) ∧
    (extOf p = "json" → detectFileTypeDS p = FileType.JSON ∧ detectFileTypeHelper p = FileType.JSON) ∧
    (extOf p = "xml" → detectFileTypeDS p = FileType.UNKNOWN ∧ detectFileTypeHelper p = FileType.XML) ∧
    (extOf p ≠ "csv" → extOf p ≠ "json" → extOf p ≠ "xml" →
      detectFileTypeDS p = FileType.UNKNOWN ∧ detectFileTypeHelper p = FileType.UNKNOWN) ∧
    (∀ r v, getFileInfo (mkSource p r v) = (p, detectFileTypeDS p)) := by
  refine ⟨fun h => ?_, fun h => ?_, fun h => ?_, fun h1 h2 h3 => ?_, fun r v => rfl⟩
  · unfold detectFileTypeDS detectFileTypeHelper
    rw [h]
    exact ⟨rfl, rfl⟩
  · unfold detectFileTypeDS detectFileTypeHelper
    rw [h]
    exact ⟨rfl, rfl⟩
  · unfold detectFileTypeDS detectFileTypeHelper
    rw [h]
    exact ⟨rfl, rfl⟩
  · unfold detectFileTypeDS detectFileTypeHelper
    constructor
    · split
      · exact absurd (by assumption) h1
      · exact absurd (by assumption) h2
      · rfl
    · split
      · exact absurd (by assumption) h1
      · exact absurd (by assumption) h2
      · exact absurd (by assumption) h3
      · rfl

/-- C4, witness for `detectFileType_spec` at the origin `"sales.xml"`. -/
theorem detectFileType_spec_witness :
    detectFileTypeDS "sales.xml" = FileType.UNKNOWN ∧
    detectFileTypeHelper "sales.xml" = FileType.XML :=
  (detectFileType_spec "sales.xml").2.2.1 rfl

/-- C2, amended: `load()` runs `read()`, then `validate` on its result; a
read error propagates unchanged, a failed validation fails with the fixed
generic validation error (returning no data), and a passed validation
returns the read dataset unchanged. -/
theorem load_spec (s : Source) :
    (∀ e, s.read = Except.error e → load s = Except.error e) ∧
    (∀ data, s.read = Except.ok data → s.validate data = true → load s = Except.ok data) ∧
    (∀ data, s.read = Except.ok data → s.validate data = false →
      load s = Except.error validationFailureMsg) := by
  refine ⟨fun e h => ?_, fun data h hv => ?_, fun data h hv => ?_⟩
  · unfold load
    rw [h]
  · unfold load
    rw [h]
    simp [hv]
  · unfold load
    rw [h]
    simp [hv, validationFailureMsg]

/-- C2, witness for `load_spec`: a source whose validation rejects its
one-record read result makes `load` fail with the generic error. -/
theorem load_spec_witness :
    load (mkSource "w.csv" (Except.ok [[("id", JsValue.num 1)]]) (fun _ => false)) =
      Except.error validationFailureMsg :=
  (load_spec _).2.2 [[("id", JsValue.num 1)]] rfl rfl

/-- C2, counterexample: the validation failure raised by `load` is one
fixed message (`数据格式验证失败`), identical for a 1-record attempt and a
2-record attempt, so it names neither the bound shape nor the record
count attempted. -/
theorem load_error_not_named :
    load (mkSource "a.json" (Except.ok [[("id", JsValue.num 1)]]) (fun _ => false)) =
      load (mkSource "b.csv" (Except.ok [[("id", JsValue.num 1)], [("id", JsValue.num 2)]])
        (fun _ => false)) ∧
    load (mkSource "a.json" (Except.ok [[("id", JsValue.num 1)]]) (fun _ => false)) =
      Except.error "数据格式验证失败" :=
  ⟨rfl, rfl⟩

/-- C7: the engine's working set is isolated from the caller's collection.
Construction (and `reset`, which executes the same `this.data = [...data]`)
allocates a fresh reference holding a copy of the caller's records;
writing through the caller's reference afterwards does not change what the
engine's reference holds, and writing through the engine's reference does
not change what the caller's reference holds. -/
theorem analyzer_defensive_copy (s : Store) (r : Nat) (h : r < s.next) :
    (analyzerCopyIn s r).2 ≠ r ∧
    ((analyzerCopyIn s r).1).mem (analyzerCopyIn s r).2 = s.mem r ∧
    (∀ v, (writeRef (analyzerCopyIn s r).1 r v).mem (analyzerCopyIn s r).2 = s.mem r) ∧
    (∀ v, (writeRef (analyzerCopyIn s r).1 (analyzerCopyIn s r).2 v).mem r = s.mem r) := by
  have hne : s.next ≠ r := by omega
  refine ⟨hne, ?_, fun v => ?_, fun v => ?_⟩
  · simp [analyzerCopyIn, allocRef]
  · simp [analyzerCopyIn, allocRef, writeRef, hne]
  · simp [analyzerCopyIn, allocRef, writeRef, hne, Ne.symm hne]

/-- C7, witness for `analyzer_defensive_copy` on a one-reference store. -/
theorem analyzer_defensive_copy_witness :
    (0 : Nat) < (Store.mk (fun _ => []) 1).next ∧
    (analyzerCopyIn (Store.mk (fun _ => []) 1) 0).2 ≠ 0 :=
  ⟨by decide, (analyzer_defensive_copy (Store.mk (fun _ => []) 1) 0 (by decide)).1⟩

/-- C8, counterexample: `CsvReader.read` on a file whose data row is the
single malformed cell `abc` silently returns a coerced record (NaN ids and
prices, `undefined` strings) instead of failing, and `XmlReader.read`
silently drops an element that is not a `Sale` (here the number 5),
returning an empty dataset with no error. -/
theorem read_returns_partial_data :
    csvRead (Except.ok "id,product,category,price,quantity,date\nabc") =
      Except.ok [[("id", JsValue.nan), ("product", JsValue.undef),
        ("category", JsValue.undef), ("price", JsValue.nan),
        ("quantity", JsValue.nan), ("date", JsValue.undef)]] ∧
    xmlRead (Except.ok [JsValue.num 5]) = Except.ok [] := by
  constructor
  · rfl
  · rfl

/-- C8, amended: `read()` wraps file-system and parse failures in its
reader-specific error, and its string/array processing itself never
throws; but malformed row content is not an error — the CSV reader
coerces every data line positionally (missing cells become
`undefined`/NaN fields) and the XML reader keeps exactly the elements
passing `isSale`, silently dropping the rest. -/
theorem read_spec :
    (∀ e, csvRead (Except.error e) = Except.error ("CSV读取失败: Error: " ++ e)) ∧
    (∀ e, xmlRead (Except.error e) = Except.error ("XML 解析失败: Error: " ++ e)) ∧
    (∀ content, csvRead (Except.ok content) =
      Except.ok (((jsSplit '\n' (jsTrim content)).drop 1).map csvLineToSale)) ∧
    (∀ salesArray, xmlRead (Except.ok salesArray) =
      Except.ok (salesArray.filter readerIsSale)) :=
  ⟨fun _ => rfl, fun _ => rfl, fun _ => rfl, fun _ => rfl⟩

/-- The six `Sale` fields with their declared scalar types
(src/types/index.ts lines 22-29). -/
def requiredSaleFields : List (String × String) :=
  [("id", "number"), ("product", "string"), ("category", "string"),
   ("price", "number"), ("quantity", "number"), ("date", "string")]

/-- The six `User` fields with their declared scalar types
(src/types/index.ts lines 34-41). -/
def requiredUserFields : List (String × String) :=
  [("id", "number"), ("name", "string"), ("age", "number"),
   ("email", "string"), ("role", "string"), ("active", "boolean")]

/-- The spec's wording of shape validity, for comparison with the code's
validators: a non-null structured object in which every required field
is present as an own key with the declared runtime type, exactly. -/
def ConformsTo (required : List (String × String)) (v : JsValue) : Prop :=
  ∃ fields, v = JsValue.obj fields ∧
    ∀ p ∈ required, hasKey fields p.1 = true ∧ typeofV (getV fields p.1) = p.2

/-- C3, counterexample: `helpers.isSale` accepts an object whose `id` is a
string, whose `product` is a number and whose `price` is a boolean — it
checks key presence only, never the declared types. -/
theorem helpersIsSale_ignores_types :
    helpersIsSale (JsValue.obj
      [("id", JsValue.str "x"), ("product", JsValue.num 1), ("price", JsValue.bool true)]) = true ∧
    typeofV (getV [("id", JsValue.str "x"), ("product", JsValue.num 1),
      ("price", JsValue.bool true)] "id") ≠ "number" :=
  ⟨rfl, by decide⟩

/-- C3, amended: the readers' record validators (`CsvReader.isSale`,
`XmlReader.isSale`, and `JsonReader.isUser` on the object elements its
collection check hands it) return true exactly on non-null objects whose
required fields are all present with the exact declared runtime type,
and false otherwise without raising; the helpers-module `isSale` and
`isUser` only check that the value is a non-null object with the shape's
three identifying keys present, with no type checks at all; every
collection-level `validate` returns false on any non-array and true on
the empty array (and otherwise checks every element). -/
theorem validators_spec :
    (∀ v, readerIsSale v = true ↔ ConformsTo requiredSaleFields v) ∧
    (∀ fields, readerIsUser (JsValue.obj fields) = true ↔
      ConformsTo requiredUserFields (JsValue.obj fields)) ∧
    (∀ v, helpersIsSale v = true ↔
      ∃ fields, v = JsValue.obj fields ∧
        hasKey fields "id" = true ∧ hasKey fields "product" = true ∧
        hasKey fields "price" = true) ∧
    (∀ v, helpersIsUser v = true ↔
      ∃ fields, v = JsValue.obj fields ∧
        hasKey fields "id" = true ∧ hasKey fields "name" = true ∧
        hasKey fields "email" = true) ∧
    (∀ pred v, (∀ items, v ≠ JsValue.arr items) → validateAll pred v = false) ∧
    (∀ pred, validateAll pred (JsValue.arr []) = true) ∧
    (∀ pred items, validateAll pred (JsValue.arr items) = items.all pred) := by
  refine ⟨fun v => ?_, fun fields => ?_, fun v => ?_, fun v => ?_,
    fun pred v hv => ?_, fun pred => rfl, fun pred items => ?_⟩
  · cases v <;>
      simp [readerIsSale, keyHasType, ConformsTo, requiredSaleFields,
        jsStrictEq, typeofV, and_assoc]
  · simp [readerIsUser, keyHasType, ConformsTo, requiredUserFields,
      jsStrictEq, typeofV, and_assoc]
  · cases v <;>
      simp [helpersIsSale, isObjWithKey, jsStrictEq, typeofV, and_assoc]
  · cases v <;>
      simp [helpersIsUser, isObjWithKey, jsStrictEq, typeofV, and_assoc]
  · cases v <;> first
      | rfl
      | exact absurd rfl (hv _)
  · cases items <;> simp [validateAll]

/-- The finite numeric values of a field over the working set, as the
spec speaks of them: the field values that are numbers. -/
def numsOf (field : String) (data : List Obj) : List ℚ :=
  (data.map (fun item => getV item field)).filterMap
    (fun v => match v with | JsValue.num q => some q | _ => none)

/-- When no field value is NaN, the `typeof`-number filter inside
`aggregate` collects exactly the finite numeric values. -/
theorem numberValues_eq_map (field : String) (data : List Obj)
    (h : JsValue.nan ∉ data.map (fun item => getV item field)) :
    numberValues field data = (numsOf field data).map JsValue.num := by
  unfold numberValues numsOf
  generalize (data.map fun item => getV item field) = vs at h ⊢
  induction vs with
  | nil => simp
  | cons v vs ih =>
    have hv : v ≠ JsValue.nan := fun he => h (he ▸ List.mem_cons_self _ _)
    have hvs : JsValue.nan ∉ vs := fun hm => h (List.mem_cons_of_mem _ hm)
    cases v <;> simp_all [typeofV, List.filter_cons, List.filterMap_cons]

/-- Folding the engine's `+` over finite numbers adds them. -/
theorem foldl_jsAdd_map (qs : List ℚ) (a : ℚ) :
    (qs.map JsValue.num).foldl jsAdd (JsValue.num a) = JsValue.num (a + qs.sum) := by
  induction qs generalizing a with
  | nil => simp
  | cons q qs ih => simp [jsAdd, ih, add_assoc]

/-- Folding binary `Math.min` over finite numbers takes the minimum. -/
theorem foldl_jsMinV_map (qs : List ℚ) (a : ℚ) :
    (qs.map JsValue.num).foldl jsMinV (JsValue.num a) = JsValue.num (qs.foldl min a) := by
  induction qs generalizing a with
  | nil => simp
  | cons q qs ih => simp [jsMinV, ih]

/-- Folding binary `Math.max` over finite numbers takes the maximum. -/
theorem foldl_jsMaxV_map (qs : List ℚ) (a : ℚ) :
    (qs.map JsValue.num).foldl jsMaxV (JsValue.num a) = JsValue.num (qs.foldl max a) := by
  induction qs generalizing a with
  | nil => simp
  | cons q qs ih => simp [jsMaxV, ih]

/-- A fold of `min` lands on its seed or on a list element. -/
theorem foldl_min_mem (l : List ℚ) (q : ℚ) : l.foldl min q = q ∨ l.foldl min q ∈ l := by
  induction l generalizing q with
  | nil => simp
  | cons x xs ih =>
    rw [List.foldl_cons]
    rcases ih (min q x) with h | h
    · rcases le_total q x with hq | hq
      · left; rw [h, min_eq_left hq]
      · right; rw [h, min_eq_right hq]; exact List.mem_cons_self x xs
    · right; exact List.mem_cons_of_mem x h

/-- A fold of `min` bounds its seed and every list element from below. -/
theorem foldl_min_le (l : List ℚ) (q : ℚ) :
    l.foldl min q ≤ q ∧ ∀ x ∈ l, l.foldl min q ≤ x := by
  induction l generalizing q with
  | nil => simp
  | cons y ys ih =>
    rw [List.foldl_cons]
    refine ⟨le_trans (ih (min q y)).1 (min_le_left q y), fun x hx => ?_⟩
    rcases List.mem_cons.mp hx with rfl | hx
    · exact le_trans (ih (min q x)).1 (min_le_right q x)
    · exact (ih (min q y)).2 x hx

/-- A fold of `max` lands on its seed or on a list element. -/
theorem foldl_max_mem (l : List ℚ) (q : ℚ) : l.foldl max q = q ∨ l.foldl max q ∈ l := by
  induction l generalizing q with
  | nil => simp
  | cons x xs ih =>
    rw [List.foldl_cons]
    rcases ih (max q x) with h | h
    · rcases le_total q x with hq | hq
      · right; rw [h, max_eq_right hq]; exact List.mem_cons_self x xs
      · left; rw [h, max_eq_left hq]
    · right; exact List.mem_cons_of_mem x h

/-- A fold of `max` bounds its seed and every list element from above. -/
theorem foldl_max_le (l : List ℚ) (q : ℚ) :
    q ≤ l.foldl max q ∧ ∀ x ∈ l, x ≤ l.foldl max q := by
  induction l generalizing q with
  | nil => simp
  | cons y ys ih =>
    rw [List.foldl_cons]
    refine ⟨le_trans (le_max_left q y) (ih (max q y)).1, fun x hx => ?_⟩
    rcases List.mem_cons.mp hx with rfl | hx
    · exact le_trans (le_max_right q x) (ih (max q x)).1
    · exact (ih (max q y)).2 x hx

/-- C1: over any working set whose field values are free of NaN,
`aggregate(field, op)` is the named reduction over exactly the numeric
values of the field (non-numeric entries excluded, no exception): sum is
the fold with `+`, count the numeric count, avg the sum divided by the
count, min/max the least/greatest numeric value; and every operation
returns 0 when no numeric values exist, the empty working set included. -/
theorem aggregate_spec (field : String) (data : List Obj)
    (h : JsValue.nan ∉ data.map (fun item => getV item field)) :
    aggregate field AggregateOperation.sum data = JsValue.num (numsOf field data).sum ∧
    aggregate field AggregateOperation.count data =
      JsValue.num ((numsOf field data).length : ℚ) ∧
    (numsOf field data = [] → ∀ op, aggregate field op data = JsValue.num 0) ∧
    (numsOf field data ≠ [] →
      aggregate field AggregateOperation.avg data =
        JsValue.num ((numsOf field data).sum / ((numsOf field data).length : ℚ))) ∧
    (numsOf field data ≠ [] → ∃ m,
      aggregate field AggregateOperation.min data = JsValue.num m ∧
      m ∈ numsOf field data ∧ ∀ x ∈ numsOf field data, m ≤ x) ∧
    (numsOf field data ≠ [] → ∃ m,
      aggregate field AggregateOperation.max data = JsValue.num m ∧
      m ∈ numsOf field data ∧ ∀ x ∈ numsOf field data, x ≤ m) := by
  have hnv := numberValues_eq_map field data h
  rcases eq_or_ne (numsOf field data) [] with he | hne
  · rw [he] at hnv
    simp only [List.map_nil] at hnv
    refine ⟨?_, ?_, fun _ op => ?_, fun hc => absurd he hc, fun hc => absurd he hc,
      fun hc => absurd he hc⟩ <;>
      simp [aggregate, hnv, he]
  · obtain ⟨q, qs, hqqs⟩ := List.exists_cons_of_ne_nil hne
    have hlen : (numberValues field data).length = (numsOf field data).length := by
      rw [hnv, List.length_map]
    have hlenne : ¬ (numberValues field data).length = 0 := by
      rw [hlen, hqqs]
      simp
    refine ⟨?_, ?_, fun hc => absurd hc hne, fun _ => ?_, fun _ => ?_, fun _ => ?_⟩
    · simp only [aggregate, if_neg hlenne]
      rw [hnv, foldl_jsAdd_map, zero_add]
    · simp only [aggregate, if_neg hlenne]
      rw [hlen]
    · simp only [aggregate, if_neg hlenne]
      rw [hnv, foldl_jsAdd_map, zero_add, List.length_map]
      rfl
    · refine ⟨(qs.foldl min q), ?_, ?_, ?_⟩
      · simp only [aggregate, if_neg hlenne]
        rw [hnv, hqqs, List.map_cons, jsMathMin, foldl_jsMinV_map]
      · rw [hqqs]
        rcases foldl_min_mem qs q with hq | hq
        · rw [hq]; exact List.mem_cons_self q qs
        · exact List.mem_cons_of_mem q hq
      · intro x hx
        rw [hqqs] at hx
        rcases List.mem_cons.mp hx with rfl | hx
        · exact (foldl_min_le qs x).1
        · exact (foldl_min_le qs q).2 x hx
    · refine ⟨(qs.foldl max q), ?_, ?_, ?_⟩
      · simp only [aggregate, if_neg hlenne]
        rw [hnv, hqqs, List.map_cons, jsMathMax, foldl_jsMaxV_map]
      · rw [hqqs]
        rcases foldl_max_mem qs q with hq | hq
        · rw [hq]; exact List.mem_cons_self q qs
        · exact List.mem_cons_of_mem q hq
      · intro x hx
        rw [hqqs] at hx
        rcases List.mem_cons.mp hx with rfl | hx
        · exact (foldl_max_le qs x).1
        · exact (foldl_max_le qs q).2 x hx

/-- The spec's three-record example dataset `[{price:10},{price:20},{price:30}]`. -/
def saleData : List Obj :=
  [[("price", JsValue.num 10)], [("price", JsValue.num 20)], [("price", JsValue.num 30)]]

/-- C1, witness for `aggregate_spec` on the spec's example dataset:
sum 60, avg 20, min 10, max 30, count 3. -/
theorem aggregate_spec_witness :
    JsValue.nan ∉ saleData.map (fun item => getV item "price") ∧
    aggregate "price" AggregateOperation.sum saleData = JsValue.num 60 ∧
    aggregate "price" AggregateOperation.avg saleData = JsValue.num 20 ∧
    aggregate "price" AggregateOperation.min saleData = JsValue.num 10 ∧
    aggregate "price" AggregateOperation.max saleData = JsValue.num 30 ∧
    aggregate "price" AggregateOperation.count saleData = JsValue.num 3 := by
  have h : JsValue.nan ∉ saleData.map (fun item => getV item "price") := by
    simp [saleData, getV]
  obtain ⟨hsum, hcount, _, havg, hmin, hmax⟩ := aggregate_spec "price" saleData h
  have hns : numsOf "price" saleData = [10, 20, 30] := rfl
  have hnsne : numsOf "price" saleData ≠ [] := by rw [hns]; simp
  refine ⟨h, ?_, ?_, ?_, ?_, ?_⟩
  · rw [hsum, hns]
    norm_num [List.sum_cons, List.sum_nil]
  · rw [havg hnsne, hns]
    norm_num [List.sum_cons, List.sum_nil]
  · obtain ⟨m, hm, hmem, hlb⟩ := hmin hnsne
    rw [hns] at hmem hlb
    have h10 : m ≤ 10 := hlb 10 (by simp)
    simp only [List.mem_cons, List.not_mem_nil, or_false] at hmem
    rcases hmem with rfl | rfl | rfl
    · exact hm
    · exact absurd h10 (by norm_num)
    · exact absurd h10 (by norm_num)
  · obtain ⟨m, hm, hmem, hub⟩ := hmax hnsne
    rw [hns] at hmem hub
    have h30 : (30:ℚ) ≤ m := hub 30 (by simp)
    simp only [List.mem_cons, List.not_mem_nil, or_false] at hmem
    rcases hmem with rfl | rfl | rfl
    · exact absurd h30 (by norm_num)
    · exact absurd h30 (by norm_num)
    · exact hm
  · rw [hcount, hns]
    norm_num

/-- Appending into a group answers lookups of that key with the extended
group. -/
theorem insertGroup_lookup_self (gs : List (String × List Obj)) (k : String) (it : Obj) :
    (insertGroup gs k it).lookup k = some (((gs.lookup k).getD []) ++ [it]) := by
  induction gs with
  | nil => simp [insertGroup]
  | cons p rest ih =>
    obtain ⟨k', l⟩ := p
    by_cases hk : k' = k
    · subst hk
      simp [insertGroup]
    · have hbeq : (k == k') = false := by
        simp [Ne.symm hk]
      simp [insertGroup, hk, List.lookup_cons, hbeq, ih]

/-- Appending into a group leaves lookups of other keys unchanged. -/
theorem insertGroup_lookup_ne (gs : List (String × List Obj)) (k k' : String) (it : Obj)
    (h : k' ≠ k) : (insertGroup gs k it).lookup k' = gs.lookup k' := by
  induction gs with
  | nil => simp [insertGroup, List.lookup_cons, (by simp [h] : (k' == k) = false)]
  | cons p rest ih =>
    obtain ⟨k'', l⟩ := p
    by_cases hk : k'' = k
    · subst hk
      simp [insertGroup, List.lookup_cons, (by simp [h] : (k' == k'') = false)]
    · simp [insertGroup, hk, List.lookup_cons, ih]

/-- A key looks up to `none` exactly when it is not among the keys. -/
theorem lookup_none_iff_not_mem (gs : List (String × List Obj)) (k : String) :
    gs.lookup k = none ↔ k ∉ gs.map Prod.fst := by
  rw [List.lookup_eq_none_iff]
  constructor
  · intro h hk
    obtain ⟨p, hp, hfst⟩ := List.mem_map.mp hk
    have := h p hp
    simp [hfst] at this
  · intro h p hp
    have : p.1 ≠ k := fun he => h (List.mem_map.mpr ⟨p, hp, he⟩)
    simp [Ne.symm this]

/-- Appending into an existing group does not change the key list. -/
theorem insertGroup_keys_of_mem (gs : List (String × List Obj)) (k : String) (it : Obj)
    (h : (gs.lookup k).isSome) :
    (insertGroup gs k it).map Prod.fst = gs.map Prod.fst := by
  induction gs with
  | nil => simp at h
  | cons p rest ih =>
    obtain ⟨k', l⟩ := p
    by_cases hk : k' = k
    · subst hk
      simp [insertGroup]
    · have hbeq : (k == k') = false := by simp [Ne.symm hk]
      rw [List.lookup_cons] at h
      simp only [hbeq] at h
      simp [insertGroup, hk, ih h]

/-- Creating a new group appends its key at the end of the key list. -/
theorem insertGroup_keys_of_none (gs : List (String × List Obj)) (k : String) (it : Obj)
    (h : gs.lookup k = none) :
    (insertGroup gs k it).map Prod.fst = gs.map Prod.fst ++ [k] := by
  induction gs with
  | nil => simp [insertGroup]
  | cons p rest ih =>
    obtain ⟨k', l⟩ := p
    by_cases hk : k' = k
    · subst hk
      simp at h
    · have hbeq : (k == k') = false := by simp [Ne.symm hk]
      rw [List.lookup_cons] at h
      simp only [hbeq] at h
      simp [insertGroup, hk, ih h]

/-- `insertGroup` keeps group keys pairwise distinct. -/
theorem insertGroup_nodup (gs : List (String × List Obj)) (k : String) (it : Obj)
    (h : (gs.map Prod.fst).Nodup) : ((insertGroup gs k it).map Prod.fst).Nodup := by
  rcases hcase : gs.lookup k with _ | l
  · rw [insertGroup_keys_of_none gs k it hcase]
    rw [List.nodup_append]
    exact ⟨h, List.nodup_singleton k,
      by simpa [List.disjoint_singleton] using (lookup_none_iff_not_mem gs k).mp hcase⟩
  · exact insertGroup_keys_of_mem gs k it (by simp [hcase]) ▸ h

/-- `insertGroup` grows the total element count by one. -/
theorem insertGroup_sizes (gs : List (String × List Obj)) (k : String) (it : Obj) :
    ((insertGroup gs k it).map (fun g => g.2.length)).sum
      = ((gs.map (fun g => g.2.length)).sum) + 1 := by
  induction gs with
  | nil => simp [insertGroup]
  | cons p rest ih =>
    obtain ⟨k', l⟩ := p
    by_cases hk : k' = k
    · subst hk
      simp [insertGroup]
      omega
    · simp [insertGroup, hk, ih]
      omega

/-- The `groupBy` fold, started from groups answering `k` with `l`,
extends `l` with exactly the folded records whose key is `k`, in order. -/
theorem groupFold_lookup_some (f : Obj → String) (ds : List Obj) :
    ∀ (gs : List (String × List Obj)) (k : String) (l : List Obj),
    gs.lookup k = some l →
    (ds.foldl (fun gs item => insertGroup gs (f item) item) gs).lookup k
      = some (l ++ ds.filter (fun r => f r == k)) := by
  induction ds with
  | nil =>
    intro gs k l h
    simpa using h
  | cons d ds ih =>
    intro gs k l h
    rw [List.foldl_cons]
    by_cases hd : f d = k
    · have hstep : (insertGroup gs (f d) d).lookup k = some (l ++ [d]) := by
        rw [hd, insertGroup_lookup_self, h]
        rfl
      rw [ih _ k (l ++ [d]) hstep,
        List.filter_cons_of_pos (by simp [hd]), List.append_assoc,
        List.singleton_append]
    · have hstep : (insertGroup gs (f d) d).lookup k = some l := by
        rw [insertGroup_lookup_ne gs (f d) k d (fun he => hd he.symm), h]
      rw [ih _ k l hstep, List.filter_cons_of_neg (by simp [hd])]

/-- The `groupBy` fold, started from groups without key `k`, answers `k`
with exactly the folded records whose key is `k`, in order — or with no
group at all when there are none. -/
theorem groupFold_lookup_none (f : Obj → String) (ds : List Obj) :
    ∀ (gs : List (String × List Obj)) (k : String),
    gs.lookup k = none →
    (ds.foldl (fun gs item => insertGroup gs (f item) item) gs).lookup k
      = if (ds.filter (fun r => f r == k)).isEmpty then none
        else some (ds.filter (fun r => f r == k)) := by
  induction ds with
  | nil =>
    intro gs k h
    simpa using h
  | cons d ds ih =>
    intro gs k h
    rw [List.foldl_cons]
    by_cases hd : f d = k
    · have hstep : (insertGroup gs (f d) d).lookup k = some [d] := by
        rw [hd, insertGroup_lookup_self, h]
        rfl
      rw [groupFold_lookup_some f ds _ k [d] hstep,
        List.filter_cons_of_pos (by simp [hd]), List.singleton_append,
        List.isEmpty_cons, if_neg (by simp)]
    · have hstep : (insertGroup gs (f d) d).lookup k = none := by
        rw [insertGroup_lookup_ne gs (f d) k d (fun he => hd he.symm), h]
      rw [ih _ k hstep, List.filter_cons_of_neg (by simp [hd])]

/-- The `groupBy` fold keeps group keys pairwise distinct. -/
theorem groupFold_nodup (f : Obj → String) (ds : List Obj) :
    ∀ (gs : List (String × List Obj)), (gs.map Prod.fst).Nodup →
    ((ds.foldl (fun gs item => insertGroup gs (f item) item) gs).map Prod.fst).Nodup := by
  induction ds with
  | nil =>
    intro gs h
    simpa using h
  | cons d ds ih =>
    intro gs h
    rw [List.foldl_cons]
    exact ih _ (insertGroup_nodup gs (f d) d h)

/-- The `groupBy` fold grows the total element count by the number of
folded records. -/
theorem groupFold_sizes (f : Obj → String) (ds : List Obj) :
    ∀ (gs : List (String × List Obj)),
    ((ds.foldl (fun gs item => insertGroup gs (f item) item) gs).map
      (fun g => g.2.length)).sum = ((gs.map (fun g => g.2.length)).sum) + ds.length := by
  induction ds with
  | nil =>
    intro gs
    simp
  | cons d ds ih =>
    intro gs
    rw [List.foldl_cons, ih, insertGroup_sizes]
    simp
    omega

/-- With pairwise-distinct keys, association-list membership determines
the lookup. -/
theorem lookup_of_mem_nodup (gs : List (String × List Obj)) (k : String) (l : List Obj)
    (hnd : (gs.map Prod.fst).Nodup) (hmem : (k, l) ∈ gs) : gs.lookup k = some l := by
  induction gs with
  | nil => simp at hmem
  | cons p rest ih =>
    obtain ⟨k', l'⟩ := p
    rcases List.mem_cons.mp hmem with he | hmem'
    · injection he with h1 h2
      subst h1
      subst h2
      simp
    · have hnd1 : k' ∉ rest.map Prod.fst := by
        have := (List.map_cons Prod.fst (k', l') rest) ▸ hnd
        exact (List.nodup_cons.mp this).1
      have hnd2 : (rest.map Prod.fst).Nodup := by
        have := (List.map_cons Prod.fst (k', l') rest) ▸ hnd
        exact (List.nodup_cons.mp this).2
      have hk : k ≠ k' := by
        rintro rfl
        exact hnd1 (List.mem_map.mpr ⟨(k, l), hmem', rfl⟩)
      rw [List.lookup_cons]
      simp only [(by simp [hk] : (k == k') = false)]
      exact ih hnd2 hmem'

/-- A successful lookup comes from an actual association-list entry. -/
theorem mem_of_lookup_some (gs : List (String × List Obj)) (k : String) (l : List Obj)
    (h : gs.lookup k = some l) : (k, l) ∈ gs := by
  induction gs with
  | nil => simp at h
  | cons p rest ih =>
    obtain ⟨k', l'⟩ := p
    rw [List.lookup_cons] at h
    rcases hbeq : (k == k') with _ | _
    · simp only [hbeq] at h
      exact List.mem_cons_of_mem _ (ih h)
    · simp only [hbeq] at h
      obtain rfl : l' = l := by injection h
      obtain rfl : k = k' := by simpa using hbeq
      exact List.mem_cons_self _ _

/-- C5: `groupBy(field)` partitions the working set by the string
representation of the field value: group keys are pairwise distinct, each
key's group is exactly the subsequence of the working set with that key
(so insertion order inside a group follows the working set's current
order), every record lands in the group of its own key, and the group
sizes sum to the working-set size — all without the working set being
changed (`groupBy` only reads it). -/
theorem groupBy_partition (field : String) (data : List Obj) :
    ((groupByField field data).map Prod.fst).Nodup ∧
    (∀ k, (groupByField field data).lookup k =
      if (data.filter (fun r => jsToString (getV r field) == k)).isEmpty then none
      else some (data.filter (fun r => jsToString (getV r field) == k))) ∧
    (∀ k l, (k, l) ∈ groupByField field data →
      l = data.filter (fun r => jsToString (getV r field) == k) ∧
      ∀ r ∈ l, jsToString (getV r field) = k) ∧
    (∀ r ∈ data, ∃ l, (jsToString (getV r field), l) ∈ groupByField field data ∧ r ∈ l) ∧
    ((groupByField field data).map (fun g => g.2.length)).sum = data.length := by
  have hdef : groupByField field data =
      data.foldl (fun gs item => insertGroup gs ((fun r => jsToString (getV r field)) item) item) [] := rfl
  have hnd : ((groupByField field data).map Prod.fst).Nodup := by
    rw [hdef]
    exact groupFold_nodup _ data [] (by simp)
  have hlk : ∀ k, (groupByField field data).lookup k =
      if (data.filter (fun r => jsToString (getV r field) == k)).isEmpty then none
      else some (data.filter (fun r => jsToString (getV r field) == k)) := by
    intro k
    rw [hdef]
    exact groupFold_lookup_none _ data [] k rfl
  refine ⟨hnd, hlk, fun k l hmem => ?_, fun r hr => ?_, ?_⟩
  · have h1 := lookup_of_mem_nodup _ k l hnd hmem
    rw [hlk k] at h1
    rcases hcase : (data.filter (fun r => jsToString (getV r field) == k)).isEmpty with _ | _
    · rw [if_neg (by simp [hcase])] at h1
      obtain rfl : l = data.filter (fun r => jsToString (getV r field) == k) := by
        injection h1.symm
      refine ⟨rfl, fun r hrl => ?_⟩
      simpa using (List.mem_filter.mp hrl).2
    · rw [if_pos (by simp [hcase])] at h1
      exact absurd h1 (by simp)
  · have hrf : r ∈ data.filter
        (fun x => jsToString (getV x field) == jsToString (getV r field)) :=
      List.mem_filter.mpr ⟨hr, by simp⟩
    have hne : (data.filter
        (fun x => jsToString (getV x field) == jsToString (getV r field))).isEmpty = false := by
      rcases hdata : data.filter
          (fun x => jsToString (getV x field) == jsToString (getV r field)) with _ | _
      · rw [hdata] at hrf
        simp at hrf
      · simp
    refine ⟨data.filter (fun x => jsToString (getV x field) == jsToString (getV r field)),
      mem_of_lookup_some _ _ _ ?_, hrf⟩
    rw [hlk (jsToString (getV r field)), if_neg (by simp [hne])]
  · rw [hdef, groupFold_sizes]
    simp

/-- For a comparison that is transitive and total on the members of `l`
(not necessarily globally), `mergeSort` sorts `l`: the relation holds
pairwise along the output. -/
theorem mergeSort_pairwise_local {α : Type} (le : α → α → Bool) (l : List α)
    (htrans : ∀ a ∈ l, ∀ b ∈ l, ∀ c ∈ l, le a b = true → le b c = true → le a c = true)
    (htotal : ∀ a ∈ l, ∀ b ∈ l, le a b = true ∨ le b a = true) :
    (l.mergeSort le).Pairwise (fun a b => le a b = true) := by
  have hmap := @List.map_mergeSort {x // x ∈ l} α (fun a b => le a.1 b.1) le
    Subtype.val l.attach (fun a _ b _ => rfl)
  rw [List.attach_map_subtype_val] at hmap
  have hs : (l.attach.mergeSort (fun a b => le a.1 b.1)).Pairwise
      (fun a b => le a.1 b.1 = true) :=
    List.sorted_mergeSort
      (fun a b c hab hbc => htrans a.1 a.2 b.1 b.2 c.1 c.2 hab hbc)
      (fun a b => by
        rcases htotal a.1 a.2 b.1 b.2 with h | h <;> simp [h])
      l.attach
  rw [← hmap, List.pairwise_map]
  exact hs

/-- Stability of `mergeSort` for a comparison transitive and total on the
members of `l`: the subsequence of records satisfying `p` — a class of
mutually tied records — is unchanged by the sort. -/
theorem mergeSort_filter_stable {α : Type} (le : α → α → Bool) (l : List α)
    (htrans : ∀ a ∈ l, ∀ b ∈ l, ∀ c ∈ l, le a b = true → le b c = true → le a c = true)
    (htotal : ∀ a ∈ l, ∀ b ∈ l, le a b = true ∨ le b a = true)
    (p : α → Bool)
    (hp : ∀ a ∈ l, ∀ b ∈ l, p a = true → p b = true → le a b = true) :
    (l.mergeSort le).filter p = l.filter p := by
  have hmap := @List.map_mergeSort {x // x ∈ l} α (fun a b => le a.1 b.1) le
    Subtype.val l.attach (fun a _ b _ => rfl)
  rw [List.attach_map_subtype_val] at hmap
  have hfp : (l.attach.filter (fun a => p a.1)).Pairwise
      (fun a b : {x // x ∈ l} => le a.1 b.1 = true) := by
    apply List.pairwise_of_forall_mem_list
    intro a ha b hb
    exact hp a.1 a.2 b.1 b.2 (List.mem_filter.mp ha).2 (List.mem_filter.mp hb).2
  have hsub : List.Sublist (l.attach.filter (fun a => p a.1))
      (l.attach.mergeSort (fun a b => le a.1 b.1)) :=
    List.sublist_mergeSort
      (fun a b c hab hbc => htrans a.1 a.2 b.1 b.2 c.1 c.2 hab hbc)
      (fun a b => by
        rcases htotal a.1 a.2 b.1 b.2 with h | h <;> simp [h])
      hfp (List.filter_sublist _)
  have hfmap : ((l.attach.filter (fun a => p a.1)).map Subtype.val) = l.filter p := by
    rw [show (fun a : {x // x ∈ l} => p a.1) = (p ∘ Subtype.val) from rfl,
      ← List.filter_map, List.attach_map_subtype_val]
  have hsubmap : List.Sublist (l.filter p) (l.mergeSort le) := by
    rw [← hmap, ← hfmap]
    exact hsub.map Subtype.val
  have h1 : List.Sublist (l.filter p) ((l.mergeSort le).filter p) := by
    have h2 : List.Sublist ((l.filter p).filter p) ((l.mergeSort le).filter p) :=
      hsubmap.filter p
    rwa [List.filter_filter, (by funext a; simp : (fun a => p a && p a) = p)] at h2
  have hlen : ((l.mergeSort le).filter p).length = (l.filter p).length :=
    ((List.mergeSort_perm l le).filter p).length_eq
  exact (h1.eq_of_length hlen.symm).symm

/-- In a list sorted along a reflexive relation, a pair of members on
which the relation fails one way appears in the other order. -/
theorem pair_sublist_of_pairwise {α : Type} (R : α → α → Prop) (hrefl : ∀ x, R x x)
    (l : List α) (hpw : l.Pairwise R) (a b : α) (ha : a ∈ l) (hb : b ∈ l)
    (hnab : ¬ R a b) : List.Sublist [b, a] l := by
  induction l with
  | nil => simp at ha
  | cons x xs ih =>
    obtain ⟨hx, hpw'⟩ := List.pairwise_cons.mp hpw
    rcases List.mem_cons.mp ha with hax | ha'
    · rcases List.mem_cons.mp hb with hbx | hb'
      · exact absurd (by rw [hax, hbx]; exact hrefl x) hnab
      · exact absurd (by rw [hax]; exact hx b hb') hnab
    · rcases List.mem_cons.mp hb with hbx | hb'
      · rw [hbx]
        exact List.Sublist.cons₂ x (List.singleton_sublist.mpr ha')
      · exact List.Sublist.cons x (ih hpw' ha' hb')

/-- The numeric reading of a record's field value (0 when not a finite
number; only used on numeric-valued fields). -/
def numOf (field : String) (r : Obj) : ℚ :=
  match getV r field with
  | JsValue.num q => q
  | _ => 0

/-- On numeric field values the ascending `sortBy` comparator orders by
value. -/
theorem leAsc_iff (field : String) {a b : Obj} {qa qb : ℚ}
    (hqa : getV a field = JsValue.num qa) (hqb : getV b field = JsValue.num qb) :
    ((decide (cmpField field SortOrder.asc a b ≤ 0)) = true) ↔ qa ≤ qb := by
  simp [cmpField, hqa, hqb, sub_nonpos]

/-- On numeric field values the descending `sortBy` comparator orders by
reversed value. -/
theorem leDesc_iff (field : String) {a b : Obj} {qa qb : ℚ}
    (hqa : getV a field = JsValue.num qa) (hqb : getV b field = JsValue.num qb) :
    ((decide (cmpField field SortOrder.desc a b ≤ 0)) = true) ↔ qb ≤ qa := by
  simp [cmpField, hqa, hqb, sub_nonpos]

/-- `numOf` reads off the numeric field value. -/
theorem numOf_eq {field : String} {r : Obj} {q : ℚ}
    (hq : getV r field = JsValue.num q) : numOf field r = q := by
  simp [numOf, hq]

/-- Strict equality of a numeric field value with a number literal is
equality of the numbers. -/
theorem strictEqNum_iff {field : String} {r : Obj} {qr q : ℚ}
    (hq : getV r field = JsValue.num qr) :
    (jsStrictEq (getV r field) (JsValue.num q) = true) ↔ qr = q := by
  simp [jsStrictEq, hq]

/-- On a working set whose field values are numeric, `sortBy` is a stable
sort: ascending then descending sorting permutes the working set, the
ascending result is pairwise value-ascending and the subsequent
descending result pairwise value-descending — so the composition reverses
the relative order of every pair of records with distinct field values
(last conjunct) — while each individual sort leaves the subsequence of
records sharing any given field value exactly as it was (the filter
equalities). -/
theorem sortBy_asc_desc (field : String) (l : List Obj)
    (h : ∀ r ∈ l, ∃ q : ℚ, getV r field = JsValue.num q) :
    (sortByField field SortOrder.asc l).Perm l ∧
    (sortByField field SortOrder.desc (sortByField field SortOrder.asc l)).Perm l ∧
    (sortByField field SortOrder.asc l).Pairwise
      (fun a b => numOf field a ≤ numOf field b) ∧
    (sortByField field SortOrder.desc (sortByField field SortOrder.asc l)).Pairwise
      (fun a b => numOf field b ≤ numOf field a) ∧
    (∀ q : ℚ, (sortByField field SortOrder.asc l).filter
        (fun r => jsStrictEq (getV r field) (JsValue.num q)) =
      l.filter (fun r => jsStrictEq (getV r field) (JsValue.num q))) ∧
    (∀ q : ℚ, (sortByField field SortOrder.desc (sortByField field SortOrder.asc l)).filter
        (fun r => jsStrictEq (getV r field) (JsValue.num q)) =
      (sortByField field SortOrder.asc l).filter
        (fun r => jsStrictEq (getV r field) (JsValue.num q))) ∧
    (∀ a ∈ l, ∀ b ∈ l, numOf field a < numOf field b →
      List.Sublist [a, b] (sortByField field SortOrder.asc l) ∧
      List.Sublist [b, a]
        (sortByField field SortOrder.desc (sortByField field SortOrder.asc l))) := by
  have hsa_perm : (sortByField field SortOrder.asc l).Perm l :=
    List.mergeSort_perm l _
  have hmem_sa : ∀ x, x ∈ sortByField field SortOrder.asc l ↔ x ∈ l :=
    fun x => hsa_perm.mem_iff
  have h' : ∀ r ∈ sortByField field SortOrder.asc l, ∃ q : ℚ, getV r field = JsValue.num q :=
    fun r hr => h r ((hmem_sa r).mp hr)
  have htransA : ∀ a ∈ l, ∀ b ∈ l, ∀ c ∈ l,
      (decide (cmpField field SortOrder.asc a b ≤ 0)) = true →
      (decide (cmpField field SortOrder.asc b c ≤ 0)) = true →
      (decide (cmpField field SortOrder.asc a c ≤ 0)) = true := by
    intro a ha b hb c hc hab hbc
    obtain ⟨qa, hqa⟩ := h a ha
    obtain ⟨qb, hqb⟩ := h b hb
    obtain ⟨qc, hqc⟩ := h c hc
    rw [leAsc_iff field hqa hqb] at hab
    rw [leAsc_iff field hqb hqc] at hbc
    exact (leAsc_iff field hqa hqc).mpr (le_trans hab hbc)
  have htotalA : ∀ a ∈ l, ∀ b ∈ l,
      (decide (cmpField field SortOrder.asc a b ≤ 0)) = true ∨
      (decide (cmpField field SortOrder.asc b a ≤ 0)) = true := by
    intro a ha b hb
    obtain ⟨qa, hqa⟩ := h a ha
    obtain ⟨qb, hqb⟩ := h b hb
    rcases le_total qa qb with hle | hle
    · exact Or.inl ((leAsc_iff field hqa hqb).mpr hle)
    · exact Or.inr ((leAsc_iff field hqb hqa).mpr hle)
  have htransD : ∀ a ∈ sortByField field SortOrder.asc l,
      ∀ b ∈ sortByField field SortOrder.asc l, ∀ c ∈ sortByField field SortOrder.asc l,
      (decide (cmpField field SortOrder.desc a b ≤ 0)) = true →
      (decide (cmpField field SortOrder.desc b c ≤ 0)) = true →
      (decide (cmpField field SortOrder.desc a c ≤ 0)) = true := by
    intro a ha b hb c hc hab hbc
    obtain ⟨qa, hqa⟩ := h' a ha
    obtain ⟨qb, hqb⟩ := h' b hb
    obtain ⟨qc, hqc⟩ := h' c hc
    rw [leDesc_iff field hqa hqb] at hab
    rw [leDesc_iff field hqb hqc] at hbc
    exact (leDesc_iff field hqa hqc).mpr (le_trans hbc hab)
  have htotalD : ∀ a ∈ sortByField field SortOrder.asc l,
      ∀ b ∈ sortByField field SortOrder.asc l,
      (decide (cmpField field SortOrder.desc a b ≤ 0)) = true ∨
      (decide (cmpField field SortOrder.desc b a ≤ 0)) = true := by
    intro a ha b hb
    obtain ⟨qa, hqa⟩ := h' a ha
    obtain ⟨qb, hqb⟩ := h' b hb
    rcases le_total qb qa with hle | hle
    · exact Or.inl ((leDesc_iff field hqa hqb).mpr hle)
    · exact Or.inr ((leDesc_iff field hqb hqa).mpr hle)
  have hpwA : (sortByField field SortOrder.asc l).Pairwise
      (fun a b => numOf field a ≤ numOf field b) := by
    have hraw := mergeSort_pairwise_local
      (fun a b => decide (cmpField field SortOrder.asc a b ≤ 0)) l htransA htotalA
    refine List.Pairwise.imp_of_mem (fun ha hb hab => ?_) hraw
    rename_i a b
    obtain ⟨qa, hqa⟩ := h' a ha
    obtain ⟨qb, hqb⟩ := h' b hb
    rw [numOf_eq hqa, numOf_eq hqb]
    exact (leAsc_iff field hqa hqb).mp hab
  have hsd_perm : (sortByField field SortOrder.desc
      (sortByField field SortOrder.asc l)).Perm (sortByField field SortOrder.asc l) :=
    List.mergeSort_perm _ _
  have hmem_sd : ∀ x, x ∈ sortByField field SortOrder.desc (sortByField field SortOrder.asc l)
      ↔ x ∈ sortByField field SortOrder.asc l :=
    fun x => hsd_perm.mem_iff
  have h'' : ∀ r ∈ sortByField field SortOrder.desc (sortByField field SortOrder.asc l),
      ∃ q : ℚ, getV r field = JsValue.num q :=
    fun r hr => h' r ((hmem_sd r).mp hr)
  have hpwD : (sortByField field SortOrder.desc
      (sortByField field SortOrder.asc l)).Pairwise
      (fun a b => numOf field b ≤ numOf field a) := by
    have hraw := mergeSort_pairwise_local
      (fun a b => decide (cmpField field SortOrder.desc a b ≤ 0))
      (sortByField field SortOrder.asc l) htransD htotalD
    refine List.Pairwise.imp_of_mem (fun ha hb hab => ?_) hraw
    rename_i a b
    obtain ⟨qa, hqa⟩ := h'' a ha
    obtain ⟨qb, hqb⟩ := h'' b hb
    rw [numOf_eq hqa, numOf_eq hqb]
    exact (leDesc_iff field hqa hqb).mp hab
  refine ⟨hsa_perm, hsd_perm.trans hsa_perm, hpwA, hpwD, fun q => ?_, fun q => ?_,
    fun a ha b hb hlt => ⟨?_, ?_⟩⟩
  · refine mergeSort_filter_stable _ l htransA htotalA _ (fun a ha b hb hpa hpb => ?_)
    obtain ⟨qa, hqa⟩ := h a ha
    obtain ⟨qb, hqb⟩ := h b hb
    rw [strictEqNum_iff hqa] at hpa
    rw [strictEqNum_iff hqb] at hpb
    exact (leAsc_iff field hqa hqb).mpr (by rw [hpa, hpb])
  · refine mergeSort_filter_stable _ (sortByField field SortOrder.asc l) htransD htotalD _
      (fun a ha b hb hpa hpb => ?_)
    obtain ⟨qa, hqa⟩ := h' a ha
    obtain ⟨qb, hqb⟩ := h' b hb
    rw [strictEqNum_iff hqa] at hpa
    rw [strictEqNum_iff hqb] at hpb
    exact (leDesc_iff field hqa hqb).mpr (by rw [hpa, hpb])
  · exact pair_sublist_of_pairwise (fun x y => numOf field x ≤ numOf field y)
      (fun x => le_refl _) _ hpwA b a ((hmem_sa b).mpr hb) ((hmem_sa a).mpr ha)
      (not_le.mpr hlt)
  · exact pair_sublist_of_pairwise (fun x y => numOf field y ≤ numOf field x)
      (fun x => le_refl _) _ hpwD a b
      ((hmem_sd a).mpr ((hmem_sa a).mpr ha)) ((hmem_sd b).mpr ((hmem_sa b).mpr hb))
      (not_le.mpr hlt)

/-- The string reading of a record's field value (empty when not a
string; only used on string-valued fields). -/
def strOf (field : String) (r : Obj) : String :=
  match getV r field with
  | JsValue.str s => s
  | _ => ""

/-- On string field values the ascending `sortBy` comparator orders by
the modelled collation. -/
theorem leAscStr_iff (field : String) {a b : Obj} {sa sb : String}
    (hsa : getV a field = JsValue.str sa) (hsb : getV b field = JsValue.str sb) :
    ((decide (cmpField field SortOrder.asc a b ≤ 0)) = true) ↔ sa ≤ sb := by
  have hc : cmpField field SortOrder.asc a b =
      (if sa < sb then (-1 : ℚ) else if sb < sa then 1 else 0) := by
    simp [cmpField, hsa, hsb]
  simp only [hc, decide_eq_true_eq]
  by_cases h1 : sa < sb
  · simp only [if_pos h1]
    exact iff_of_true (by norm_num) (le_of_lt h1)
  · by_cases h2 : sb < sa
    · simp only [if_neg h1, if_pos h2]
      exact iff_of_false (by norm_num) (not_le.mpr h2)
    · simp only [if_neg h1, if_neg h2]
      exact iff_of_true le_rfl (not_lt.mp h2)

/-- On string field values the descending `sortBy` comparator orders by
the reversed collation. -/
theorem leDescStr_iff (field : String) {a b : Obj} {sa sb : String}
    (hsa : getV a field = JsValue.str sa) (hsb : getV b field = JsValue.str sb) :
    ((decide (cmpField field SortOrder.desc a b ≤ 0)) = true) ↔ sb ≤ sa := by
  have hc : cmpField field SortOrder.desc a b =
      -(if sa < sb then (-1 : ℚ) else if sb < sa then 1 else 0) := by
    simp [cmpField, hsa, hsb]
  simp only [hc, decide_eq_true_eq, neg_nonpos]
  by_cases h1 : sa < sb
  · simp only [if_pos h1]
    exact iff_of_false (by norm_num) (not_le.mpr h1)
  · by_cases h2 : sb < sa
    · simp only [if_neg h1, if_pos h2]
      exact iff_of_true (by norm_num) (le_of_lt h2)
    · simp only [if_neg h1, if_neg h2]
      exact iff_of_true le_rfl (not_lt.mp h1)

/-- `strOf` reads off the string field value. -/
theorem strOf_eq {field : String} {r : Obj} {s : String}
    (hs : getV r field = JsValue.str s) : strOf field r = s := by
  simp [strOf, hs]

/-- Strict equality of a string field value with a string literal is
equality of the strings. -/
theorem strictEqStr_iff {field : String} {r : Obj} {sr s : String}
    (hs : getV r field = JsValue.str sr) :
    (jsStrictEq (getV r field) (JsValue.str s) = true) ↔ sr = s := by
  simp [jsStrictEq, hs]

/-- The string-field counterpart of `sortBy_asc_desc`. -/
theorem sortBy_asc_desc_str (field : String) (l : List Obj)
    (h : ∀ r ∈ l, ∃ s : String, getV r field = JsValue.str s) :
    (sortByField field SortOrder.asc l).Perm l ∧
    (sortByField field SortOrder.desc (sortByField field SortOrder.asc l)).Perm l ∧
    (sortByField field SortOrder.asc l).Pairwise
      (fun a b => strOf field a ≤ strOf field b) ∧
    (sortByField field SortOrder.desc (sortByField field SortOrder.asc l)).Pairwise
      (fun a b => strOf field b ≤ strOf field a) ∧
    (∀ s : String, (sortByField field SortOrder.asc l).filter
        (fun r => jsStrictEq (getV r field) (JsValue.str s)) =
      l.filter (fun r => jsStrictEq (getV r field) (JsValue.str s))) ∧
    (∀ s : String, (sortByField field SortOrder.desc (sortByField field SortOrder.asc l)).filter
        (fun r => jsStrictEq (getV r field) (JsValue.str s)) =
      (sortByField field SortOrder.asc l).filter
        (fun r => jsStrictEq (getV r field) (JsValue.str s))) ∧
    (∀ a ∈ l, ∀ b ∈ l, strOf field a < strOf field b →
      List.Sublist [a, b] (sortByField field SortOrder.asc l) ∧
      List.Sublist [b, a]
        (sortByField field SortOrder.desc (sortByField field SortOrder.asc l))) := by
  have hsa_perm : (sortByField field SortOrder.asc l).Perm l :=
    List.mergeSort_perm l _
  have hmem_sa : ∀ x, x ∈ sortByField field SortOrder.asc l ↔ x ∈ l :=
    fun x => hsa_perm.mem_iff
  have h' : ∀ r ∈ sortByField field SortOrder.asc l, ∃ s : String, getV r field = JsValue.str s :=
    fun r hr => h r ((hmem_sa r).mp hr)
  have htransA : ∀ a ∈ l, ∀ b ∈ l, ∀ c ∈ l,
      (decide (cmpField field SortOrder.asc a b ≤ 0)) = true →
      (decide (cmpField field SortOrder.asc b c ≤ 0)) = true →
      (decide (cmpField field SortOrder.asc a c ≤ 0)) = true := by
    intro a ha b hb c hc hab hbc
    obtain ⟨sa, hqa⟩ := h a ha
    obtain ⟨sb, hqb⟩ := h b hb
    obtain ⟨sc, hqc⟩ := h c hc
    rw [leAscStr_iff field hqa hqb] at hab
    rw [leAscStr_iff field hqb hqc] at hbc
    exact (leAscStr_iff field hqa hqc).mpr (le_trans hab hbc)
  have htotalA : ∀ a ∈ l, ∀ b ∈ l,
      (decide (cmpField field SortOrder.asc a b ≤ 0)) = true ∨
      (decide (cmpField field SortOrder.asc b a ≤ 0)) = true := by
    intro a ha b hb
    obtain ⟨sa, hqa⟩ := h a ha
    obtain ⟨sb, hqb⟩ := h b hb
    rcases le_total sa sb with hle | hle
    · exact Or.inl ((leAscStr_iff field hqa hqb).mpr hle)
    · exact Or.inr ((leAscStr_iff field hqb hqa).mpr hle)
  have htransD : ∀ a ∈ sortByField field SortOrder.asc l,
      ∀ b ∈ sortByField field SortOrder.asc l, ∀ c ∈ sortByField field SortOrder.asc l,
      (decide (cmpField field SortOrder.desc a b ≤ 0)) = true →
      (decide (cmpField field SortOrder.desc b c ≤ 0)) = true →
      (decide (cmpField field SortOrder.desc a c ≤ 0)) = true := by
    intro a ha b hb c hc hab hbc
    obtain ⟨sa, hqa⟩ := h' a ha
    obtain ⟨sb, hqb⟩ := h' b hb
    obtain ⟨sc, hqc⟩ := h' c hc
    rw [leDescStr_iff field hqa hqb] at hab
    rw [leDescStr_iff field hqb hqc] at hbc
    exact (leDescStr_iff field hqa hqc).mpr (le_trans hbc hab)
  have htotalD : ∀ a ∈ sortByField field SortOrder.asc l,
      ∀ b ∈ sortByField field SortOrder.asc l,
      (decide (cmpField field SortOrder.desc a b ≤ 0)) = true ∨
      (decide (cmpField field SortOrder.desc b a ≤ 0)) = true := by
    intro a ha b hb
    obtain ⟨sa, hqa⟩ := h' a ha
    obtain ⟨sb, hqb⟩ := h' b hb
    rcases le_total sb sa with hle | hle
    · exact Or.inl ((leDescStr_iff field hqa hqb).mpr hle)
    · exact Or.inr ((leDescStr_iff field hqb hqa).mpr hle)
  have hpwA : (sortByField field SortOrder.asc l).Pairwise
      (fun a b => strOf field a ≤ strOf field b) := by
    have hraw := mergeSort_pairwise_local
      (fun a b => decide (cmpField field SortOrder.asc a b ≤ 0)) l htransA htotalA
    refine List.Pairwise.imp_of_mem (fun ha hb hab => ?_) hraw
    rename_i a b
    obtain ⟨sa, hqa⟩ := h' a ha
    obtain ⟨sb, hqb⟩ := h' b hb
    rw [strOf_eq hqa, strOf_eq hqb]
    exact (leAscStr_iff field hqa hqb).mp hab
  have hsd_perm : (sortByField field SortOrder.desc
      (sortByField field SortOrder.asc l)).Perm (sortByField field SortOrder.asc l) :=
    List.mergeSort_perm _ _
  have hmem_sd : ∀ x, x ∈ sortByField field SortOrder.desc (sortByField field SortOrder.asc l)
      ↔ x ∈ sortByField field SortOrder.asc l :=
    fun x => hsd_perm.mem_iff
  have h'' : ∀ r ∈ sortByField field SortOrder.desc (sortByField field SortOrder.asc l),
      ∃ s : String, getV r field = JsValue.str s :=
    fun r hr => h' r ((hmem_sd r).mp hr)
  have hpwD : (sortByField field SortOrder.desc
      (sortByField field SortOrder.asc l)).Pairwise
      (fun a b => strOf field b ≤ strOf field a) := by
    have hraw := mergeSort_pairwise_local
      (fun a b => decide (cmpField field SortOrder.desc a b ≤ 0))
      (sortByField field SortOrder.asc l) htransD htotalD
    refine List.Pairwise.imp_of_mem (fun ha hb hab => ?_) hraw
    rename_i a b
    obtain ⟨sa, hqa⟩ := h'' a ha
    obtain ⟨sb, hqb⟩ := h'' b hb
    rw [strOf_eq hqa, strOf_eq hqb]
    exact (leDescStr_iff field hqa hqb).mp hab
  refine ⟨hsa_perm, hsd_perm.trans hsa_perm, hpwA, hpwD, fun s => ?_, fun s => ?_,
    fun a ha b hb hlt => ⟨?_, ?_⟩⟩
  · refine mergeSort_filter_stable _ l htransA htotalA _ (fun a ha b hb hpa hpb => ?_)
    obtain ⟨sa, hqa⟩ := h a ha
    obtain ⟨sb, hqb⟩ := h b hb
    rw [strictEqStr_iff hqa] at hpa
    rw [strictEqStr_iff hqb] at hpb
    exact (leAscStr_iff field hqa hqb).mpr (by rw [hpa, hpb])
  · refine mergeSort_filter_stable _ (sortByField field SortOrder.asc l) htransD htotalD _
      (fun a ha b hb hpa hpb => ?_)
    obtain ⟨sa, hqa⟩ := h' a ha
    obtain ⟨sb, hqb⟩ := h' b hb
    rw [strictEqStr_iff hqa] at hpa
    rw [strictEqStr_iff hqb] at hpb
    exact (leDescStr_iff field hqa hqb).mpr (by rw [hpa, hpb])
  · exact pair_sublist_of_pairwise (fun x y => strOf field x ≤ strOf field y)
      (fun x => le_refl _) _ hpwA b a ((hmem_sa b).mpr hb) ((hmem_sa a).mpr ha)
      (not_le.mpr hlt)
  · exact pair_sublist_of_pairwise (fun x y => strOf field y ≤ strOf field x)
      (fun x => le_refl _) _ hpwD a b
      ((hmem_sd a).mpr ((hmem_sa a).mpr ha)) ((hmem_sd b).mpr ((hmem_sa b).mpr hb))
      (not_le.mpr hlt)

/-- C6: `sortBy` is a stable sort under its comparison rule. On every
working set whose field values are of one comparable kind (all numbers,
or all strings — mixed-kind pairs compare equal by the rule and are
deliberately left in place): ascending then descending sorting permutes
the working set; the ascending result is value-ascending and the
subsequent descending result value-descending, so the composition
reverses the relative order of every pair of records with distinct field
values (last conjunct of each branch); and each individual sort preserves
the relative order among records sharing a field value (the filter
equalities). -/
theorem sortBy_spec (field : String) (l : List Obj) :
    ((∀ r ∈ l, ∃ q : ℚ, getV r field = JsValue.num q) →
      ((sortByField field SortOrder.asc l).Perm l ∧
       (sortByField field SortOrder.desc (sortByField field SortOrder.asc l)).Perm l ∧
       (sortByField field SortOrder.asc l).Pairwise
         (fun a b => numOf field a ≤ numOf field b) ∧
       (sortByField field SortOrder.desc (sortByField field SortOrder.asc l)).Pairwise
         (fun a b => numOf field b ≤ numOf field a) ∧
       (∀ q : ℚ, (sortByField field SortOrder.asc l).filter
           (fun r => jsStrictEq (getV r field) (JsValue.num q)) =
         l.filter (fun r => jsStrictEq (getV r field) (JsValue.num q))) ∧
       (∀ q : ℚ,
         (sortByField field SortOrder.desc (sortByField field SortOrder.asc l)).filter
           (fun r => jsStrictEq (getV r field) (JsValue.num q)) =
         (sortByField field SortOrder.asc l).filter
           (fun r => jsStrictEq (getV r field) (JsValue.num q))) ∧
       (∀ a ∈ l, ∀ b ∈ l, numOf field a < numOf field b →
         List.Sublist [a, b] (sortByField field SortOrder.asc l) ∧
         List.Sublist [b, a]
           (sortByField field SortOrder.desc (sortByField field SortOrder.asc l))))) ∧
    ((∀ r ∈ l, ∃ s : String, getV r field = JsValue.str s) →
      ((sortByField field SortOrder.asc l).Perm l ∧
       (sortByField field SortOrder.desc (sortByField field SortOrder.asc l)).Perm l ∧
       (sortByField field SortOrder.asc l).Pairwise
         (fun a b => strOf field a ≤ strOf field b) ∧
       (sortByField field SortOrder.desc (sortByField field SortOrder.asc l)).Pairwise
         (fun a b => strOf field b ≤ strOf field a) ∧
       (∀ s : String, (sortByField field SortOrder.asc l).filter
           (fun r => jsStrictEq (getV r field) (JsValue.str s)) =
         l.filter (fun r => jsStrictEq (getV r field) (JsValue.str s))) ∧
       (∀ s : String,
         (sortByField field SortOrder.desc (sortByField field SortOrder.asc l)).filter
           (fun r => jsStrictEq (getV r field) (JsValue.str s)) =
         (sortByField field SortOrder.asc l).filter
           (fun r => jsStrictEq (getV r field) (JsValue.str s))) ∧
       (∀ a ∈ l, ∀ b ∈ l, strOf field a < strOf field b →
         List.Sublist [a, b] (sortByField field SortOrder.asc l) ∧
         List.Sublist [b, a]
           (sortByField field SortOrder.desc (sortByField field SortOrder.asc l))))) :=
  ⟨fun h => sortBy_asc_desc field l h, fun h => sortBy_asc_desc_str field l h⟩

/-- C6, witness for `sortBy_spec` on a concrete two-record numeric
working set. -/
theorem sortBy_spec_witness :
    (sortByField "price" SortOrder.asc
      [[("price", JsValue.num 20)], [("price", JsValue.num 10)]]).Perm
      [[("price", JsValue.num 20)], [("price", JsValue.num 10)]] :=
  ((sortBy_spec "price" [[("price", JsValue.num 20)], [("price", JsValue.num 10)]]).1
    (by
      intro r hr
      rcases List.mem_cons.mp hr with hr1 | hr2
      · exact ⟨20, by rw [hr1]; rfl⟩
      · rcases List.mem_cons.mp hr2 with hr3 | hr4
        · exact ⟨10, by rw [hr3]; rfl⟩
        · simp at hr4)).1
